import Mathlib


/-!
Verification development for the arXiv daily-paper browser (`src/app.js`).

The JavaScript source is shallowly embedded: JS strings become `List Char`,
JS `Set` objects become insertion-ordered duplicate-free lists, the object
`{ topic: Set<id> }` becomes an insertion-ordered association list, and the
browser-local storage triple becomes an explicit `Store` record threaded
through the operations.  Each definition mirrors one function of `app.js`
and keeps its name where Lean allows it.
-/

namespace Arxiv


/-- JS strings are modelled as lists of characters. -/
abbrev Str := List Char


/-- Whitespace class used by JS `trim` and the `\s` regex class
(the characters that actually occur in search input). -/
def jsWS (c : Char) : Bool :=
  c = ' ' || c = '\t' || c = '\n' || c = '\r'


/-- JS `String.prototype.trim`: strip leading and trailing whitespace. -/
def jsTrim (s : Str) : Str :=
  ((s.dropWhile jsWS).reverse.dropWhile jsWS).reverse


/-- `normalize` from app.js: lower-case the string (the `(s||"")` null guard
is vacuous here because fields are total). -/
def normalize (s : Str) : Str := s.map Char.toLower


/-- `needle` occurs at the start of `hay` (JS `String.prototype.startsWith`). -/
def startsSeg : Str → Str → Bool
  | [], _ => true
  | _ :: _, [] => false
  | a :: as, b :: bs => a = b && startsSeg as bs


/-- `needle` occurs as a contiguous substring of `hay`
(JS `String.prototype.includes`). -/
def hasSeg (needle : Str) : Str → Bool
  | [] => needle.isEmpty
  | c :: t => startsSeg needle (c :: t) || hasSeg needle t


/-- One paper record as found in the daily JSON files.  `category` is
`none` when the field is absent or not an array (the `Array.isArray`
guard in `categoryMatches`). -/
structure Paper where
  title : Str
  summary : Str
  category : Option (List Str)
  published : Str
  link : Str
  deriving DecidableEq, Repr


/-- `textMatches(paper, terms, titleOnly)` from app.js. -/
def textMatches (paper : Paper) (terms : List Str) (titleOnly : Bool) : Bool :=
  if terms.length = 0 then true
  else
    let title := normalize paper.title
    let summary := normalize paper.summary
    let hay := if titleOnly then title else title ++ [' '] ++ summary
    terms.all fun term =>
      let term := jsTrim term
      if term.isEmpty then true
      else
        let quoted := term.head? = some '"' && term.getLast? = some '"'
        let needle := normalize (if quoted then (term.drop 1).dropLast else term)
        hasSeg needle hay


/-- `categoryMatches(paper, allowed)` from app.js; the JS `Set` of allowed
categories is modelled as a duplicate-free list, `allowed.size === 0`
becoming emptiness. -/
def categoryMatches (paper : Paper) (allowed : List Str) : Bool :=
  if allowed.isEmpty then true
  else
    let cats := paper.category.getD []
    cats.any fun c => allowed.contains c


/-- Claim C1 verbatim: every term of `T` (a quoted term after stripping its
surrounding double quotes) occurs as a case-insensitive substring of the
title alone (title-only mode) or of the concatenation of title and
summary. -/
def textMatchesClaimSpec (paper : Paper) (terms : List Str) (titleOnly : Bool) : Prop :=
  terms = [] ∨
    ∀ t ∈ terms,
      let quoted := t.head? = some '"' && t.getLast? = some '"'
      let needle := if quoted then (t.drop 1).dropLast else t
      let hay := if titleOnly then paper.title else paper.title ++ paper.summary
      hasSeg (normalize needle) (normalize hay) = true


/-- Claim C1 as amended: each term is first trimmed (a term that trims to
nothing is vacuously satisfied), quote stripping happens after trimming,
and in full-text mode the haystack is title and summary joined by a single
space. -/
def textMatchesAmendedSpec (paper : Paper) (terms : List Str) (titleOnly : Bool) : Prop :=
  terms = [] ∨
    ∀ t ∈ terms,
      let t' := jsTrim t
      t' = [] ∨
        (let quoted := t'.head? = some '"' && t'.getLast? = some '"'
         let needle := if quoted then (t'.drop 1).dropLast else t'
         let hay := if titleOnly then paper.title
                    else paper.title ++ [' '] ++ paper.summary
         hasSeg (normalize needle) (normalize hay) = true)


/-- Claim C6 verbatim: empty allowed set matches everything, otherwise some
category of the paper lies in the allowed set. -/
def categoryMatchesSpec (paper : Paper) (allowed : List Str) : Prop :=
  allowed = [] ∨ ∃ c ∈ paper.category.getD [], c ∈ allowed


/-! ### Term extraction (`getActiveTerms`)

The regex `/"([^"]+)"/g` of app.js is embedded as a left-to-right scanner:
`scanOut` walks the string outside any quoted region; on an opening `"`,
`scanOpen` accumulates the candidate content.  A capture needs non-empty
content and a closing quote, exactly as `[^"]+` demands; failed openings
fall back into the residual string (the string with all matches removed,
i.e. the result of `raw.replace(/"([^"]+)"/g, "")`). -/

mutual

def scanOut : Str → List Str × Str
  | [] => ([], [])
  | c :: rest =>
    if c = '"' then scanOpen rest []
    else
      let r := scanOut rest
      (r.1, c :: r.2)

def scanOpen : Str → Str → List Str × Str
  | [], segRev => ([], '"' :: segRev.reverse)
  | c :: rest, segRev =>
    if c = '"' then
      if segRev.isEmpty then
        let r := scanOpen rest []
        (r.1, '"' :: r.2)
      else
        let r := scanOut rest
        (segRev.reverse :: r.1, r.2)
    else scanOpen rest (c :: segRev)

end


/-! JS `String.prototype.split(/\s+/)`: fields are the runs between maximal
whitespace runs, with an empty leading/trailing field when the string
starts/ends with whitespace.  `splitA` is building the current field
(reversed), `splitB` is inside a separator run. -/

mutual

def splitA : Str → Str → List Str
  | [], cur => [cur.reverse]
  | c :: t, cur => if jsWS c then cur.reverse :: splitB t else splitA t (c :: cur)

def splitB : Str → List Str
  | [] => [[]]
  | c :: t => if jsWS c then splitB t else splitA t [c]

end


def splitWS (s : Str) : List Str := splitA s []


/-- `getActiveTerms` from app.js; the text-box value and the active preset
chip terms are passed explicitly. -/
def getActiveTerms (searchVal : Str) (chips : List Str) : List Str :=
  let raw := jsTrim searchVal
  let sc := scanOut raw
  let quotes := sc.1.map fun seg => '"' :: seg ++ ['"']
  let withoutQuotes := jsTrim sc.2
  let singles := if withoutQuotes.isEmpty then [] else splitWS withoutQuotes
  (quotes ++ singles ++ chips).filter fun t => !t.isEmpty


/-! ### Loader (`fetchDay` / `loadDays`) -/

/-- A paper tagged with its origin date (`{...p, __date: dateStr}`). -/
structure DatedPaper where
  paper : Paper
  date : Str
  deriving DecidableEq, Repr


/-- Outcome of `fetch` for one day's file: a network error (rejected
promise), a non-OK HTTP status, a JSON body that is an array of papers, or
a JSON body that is not an array. -/
inductive FetchResult where
  | netError
  | httpNotOk
  | okArray (ps : List Paper)
  | okNonArray
  deriving DecidableEq, Repr


/-- The fetch outcomes `fetchDay` absorbs into an empty list. -/
def fetchFails : FetchResult → Bool
  | .okArray _ => false
  | _ => true


/-- `fetchDay(dateStr)` from app.js; the network is an explicit function
from date string to fetch outcome. -/
def fetchDay (net : Str → FetchResult) (dateStr : Str) : List DatedPaper :=
  match net dateStr with
  | .okArray ps => ps.map fun p => ⟨p, dateStr⟩
  | _ => []


/-- `loadDays(nDays)` from app.js: one `fetchDay` task per day counting
back from today (`dayStr i` is the ISO string of today minus `i` days),
results concatenated by `results.flat()`. -/
def loadDays (net : Str → FetchResult) (dayStr : Nat → Str) (nDays : Nat) : List DatedPaper :=
  (((List.range nDays).map fun i => fetchDay net (dayStr i))).flatten


/-! ### Personal tag store

Browser-local storage is modelled as an explicit `Store` record: the JS
`Set<id>` becomes an insertion-ordered duplicate-free list (`setAdd` is
`Set.prototype.add`), and the object `{ topic: Set<id> }` becomes an
insertion-ordered association list whose keys are unique by construction
(JSON objects cannot carry duplicate keys).  `sbtSet` models JS property
assignment — replacement in place for an existing key, append for a new
one — and `sbtDelete` models the `delete` operator.  Each operation
mirrors one handler of app.js with its `load…`/`save…` calls turned into
state access. -/

structure Store where
  readLater : List Str
  topics : List Str
  starsByTopic : List (Str × List Str)
  deriving DecidableEq, Repr


def emptyStore : Store := ⟨[], [], []⟩


/-- `Set.prototype.add`: append unless already present. -/
def setAdd (s : List Str) (x : Str) : List Str :=
  if x ∈ s then s else s ++ [x]


/-- `new Set(array)`: keep the first occurrence of each element. -/
def dedupKF (l : List Str) : List Str := l.foldl setAdd []


def sbtGet (m : List (Str × List Str)) (k : Str) : Option (List Str) :=
  (m.find? fun e => decide (e.1 = k)).map (·.2)


def sbtSet : List (Str × List Str) → Str → List Str → List (Str × List Str)
  | [], k, v => [(k, v)]
  | e :: t, k, v => if e.1 = k then (k, v) :: t else e :: sbtSet t k v


def sbtDelete (m : List (Str × List Str)) (k : Str) : List (Str × List Str) :=
  m.filter fun e => !decide (e.1 = k)


/-- `createTopic` from app.js (the prompted name passed explicitly; a
cancelled or empty prompt and a duplicate name are no-ops). -/
def createTopic (s : Store) (name : Str) : Store :=
  if name = [] then s
  else if name ∈ s.topics then s
  else
    { s with
      topics := s.topics ++ [name],
      starsByTopic :=
        if (sbtGet s.starsByTopic name).isSome then s.starsByTopic
        else s.starsByTopic ++ [(name, [])] }


/-- `renameTopic` from app.js; the two prompted names are passed
explicitly, the guard chain mirrors the early returns. -/
def renameTopic (s : Store) (oldName newName : Str) : Store :=
  if s.topics = [] then s
  else if oldName = [] ∨ oldName ∉ s.topics then s
  else if newName = [] then s
  else if newName ∈ s.topics ∧ ¬ newName = oldName then s
  else
    { s with
      topics := s.topics.map fun t => if t = oldName then newName else t,
      starsByTopic :=
        sbtDelete
          (sbtSet s.starsByTopic newName ((sbtGet s.starsByTopic oldName).getD []))
          oldName }


/-- `deleteTopic` from app.js (confirmation assumed given). -/
def deleteTopic (s : Store) (name : Str) : Store :=
  if s.topics = [] then s
  else if name = [] ∨ name ∉ s.topics then s
  else
    { s with
      topics := s.topics.filter fun t => !decide (t = name),
      starsByTopic := sbtDelete s.starsByTopic name }


/-- Read-later button click: toggle the id in the stored set. -/
def toggleReadLater (s : Store) (id : Str) : Store :=
  if id ∈ s.readLater then
    { s with readLater := s.readLater.filter fun x => !decide (x = id) }
  else
    { s with readLater := s.readLater ++ [id] }


/-- `+ topic…` select handler: star the paper under the chosen topic. -/
def addStarToTopic (s : Store) (t id : Str) : Store :=
  if t = [] then s
  else
    { s with
      starsByTopic := sbtSet s.starsByTopic t (setAdd ((sbtGet s.starsByTopic t).getD []) id) }


/-- Star-button toggle-off: delete the id from every topic's set (when the
id is starred nowhere this is the identity, matching the alert-only
branch). -/
def removeStarFromAll (s : Store) (id : Str) : Store :=
  { s with
    starsByTopic := s.starsByTopic.map fun e => (e.1, e.2.filter fun x => !decide (x = id)) }


/-- Topic-badge `×` button: delete the id from one topic's set. -/
def removeStarFromTopic (s : Store) (t id : Str) : Store :=
  { s with
    starsByTopic :=
      s.starsByTopic.map fun e =>
        if e.1 = t then (e.1, e.2.filter fun x => !decide (x = id)) else e }


/-- `exportReadLater` from app.js: the JSON document's content,
`[...loadReadLater()]`. -/
def exportReadLater (s : Store) : List Str := s.readLater


/-- The bare-array branch of `importJSONFile` (parsed ids and the prompted
destination passed explicitly; a cancelled prompt is a no-op). -/
def importBareArray (s : Store) (kind : Str) (ids : List Str) : Store :=
  if kind = [] then s
  else if kind = "read_later".toList then
    { s with readLater := ids.foldl setAdd s.readLater }
  else
    { s with
      topics := if kind ∈ s.topics then s.topics else s.topics ++ [kind],
      starsByTopic :=
        sbtSet s.starsByTopic kind
          (ids.foldl setAdd ((sbtGet s.starsByTopic kind).getD [])) }


/-- A parsed full-payload import file (`readLater`, `topics`,
`starsByTopic` all present). -/
structure Payload where
  readLater : List Str
  topics : List Str
  starsByTopic : List (Str × List Str)
  deriving DecidableEq, Repr


/-- The full-payload branch of `importJSONFile`: `saveReadLater(new
Set(parsed.readLater)); saveTopics(parsed.topics);` and a rebuilt star
map — the previous store contents are overwritten. -/
def importFullPayload (_s : Store) (p : Payload) : Store :=
  { readLater := dedupKF p.readLater,
    topics := p.topics,
    starsByTopic := p.starsByTopic.map fun e => (e.1, dedupKF e.2) }


/-! ### The key-subset invariant (C8) -/

/-- The set of topic names appearing as keys of the star map is a subset
of the topic list. -/
def keysSub (s : Store) : Prop := ∀ e ∈ s.starsByTopic, e.1 ∈ s.topics


/-- One store operation as triggered from the UI. -/
inductive Op where
  | create (name : Str)
  | rename (oldName newName : Str)
  | del (name : Str)
  | starAdd (topic id : Str)
  | starRemoveAll (id : Str)
  | starRemove (topic id : Str)
  | rlToggle (id : Str)
  | impBare (kind : Str) (ids : List Str)
  | impFull (p : Payload)


def applyOp (s : Store) : Op → Store
  | .create n => createTopic s n
  | .rename o n => renameTopic s o n
  | .del n => deleteTopic s n
  | .starAdd t id => addStarToTopic s t id
  | .starRemoveAll id => removeStarFromAll s id
  | .starRemove t id => removeStarFromTopic s t id
  | .rlToggle id => toggleReadLater s id
  | .impBare k ids => importBareArray s k ids
  | .impFull p => importFullPayload s p


/-- Side conditions the UI guarantees: the `+ topic…` select only offers
topics from the stored topic list, and a full-payload import is
well-formed when the payload's own star keys lie in its topic list. -/
def wfOp (s : Store) : Op → Bool
  | .starAdd t _ => decide (t ∈ s.topics)
  | .impFull p => p.starsByTopic.all fun e => decide (e.1 ∈ p.topics)
  | _ => true


def wfRun : Store → List Op → Bool
  | _, [] => true
  | s, op :: rest => wfOp s op && wfRun (applyOp s op) rest


def runOps (s : Store) (ops : List Op) : Store := ops.foldl applyOp s


/-! ### Raw storage loaders (C10)

For C10 the loaders are modelled at the JavaScript value level.  A stored
cell is absent, the empty string (falsy, so `loadJSON` returns the
fallback before parsing), a string `JSON.parse` rejects (the `catch`
returns the fallback), or a string parsing to a JSON value.  Loader steps
that throw a `TypeError` in JS — `new Set(x)` on a non-iterable `x`,
`Object.keys(null)` — are modelled with `Except Unit`. -/

inductive JVal where
  | null
  | bool (b : Bool)
  | num (n : Int)
  | str (s : Str)
  | arr (xs : List JVal)
  | obj (fields : List (Str × JVal))


/-- One local-storage cell as `loadJSON` sees it. -/
inductive RawCell where
  | absent
  | emptyStr
  | invalid
  | json (v : JVal)


/-- The cells on which `loadJSON` returns its fallback. -/
def RawCell.fallsBack : RawCell → Bool
  | .json _ => false
  | _ => true


/-- `loadJSON(key, fallback)` from app.js. -/
def loadJSON : RawCell → JVal → JVal
  | .absent, fb => fb
  | .emptyStr, fb => fb
  | .invalid, fb => fb
  | .json v, _ => v


/-- JS `SameValueZero` equality as it applies to freshly parsed JSON
values: primitives compare by value; parsed objects and arrays are
distinct references, so they never compare equal. -/
def primEq : JVal → JVal → Bool
  | .null, .null => true
  | .bool a, .bool b => a = b
  | .num a, .num b => a = b
  | .str a, .str b => a = b
  | _, _ => false


/-- Element list of a JS `Set` built from a list: keep first occurrences
(reference-distinct objects are never merged). -/
def primDedup (xs : List JVal) : List JVal :=
  xs.foldl (fun acc x => if acc.any (primEq x) then acc else acc ++ [x]) []


/-- `new Set(x)`: `null`/`undefined` give the empty set, arrays and
strings are iterated, anything else throws a `TypeError`. -/
def jsSetElems : JVal → Except Unit (List JVal)
  | .null => .ok []
  | .arr xs => .ok (primDedup xs)
  | .str s => .ok (primDedup (s.map fun c => JVal.str [c]))
  | _ => .error ()


/-- `loadReadLater()` from app.js: `new Set(loadJSON(key, []))`. -/
def loadReadLater (cell : RawCell) : Except Unit (List JVal) :=
  jsSetElems (loadJSON cell (.arr []))


/-- `loadTopics()` from app.js: returns the parsed value unchecked. -/
def loadTopics (cell : RawCell) : JVal :=
  loadJSON cell (.arr [])


/-- The decimal key strings `Object.keys` produces for array and string
indices. -/
def natKey (i : Nat) : Str := (Nat.repr i).toList


/-- `loadStarsByTopic()` from app.js: `Object.keys(obj)` then
`out[k] = new Set(obj[k])` per key.  `Object.keys(null)` throws; numbers
and booleans have no keys, yielding the empty map; arrays and strings
enumerate index keys; the first non-iterable member value throws. -/
def loadStarsByTopic (cell : RawCell) : Except Unit (List (Str × List JVal)) :=
  match loadJSON cell (.obj []) with
  | .null => .error ()
  | .obj fields => fields.mapM fun e => (jsSetElems e.2).map fun els => (e.1, els)
  | .arr xs => xs.enum.mapM fun ix => (jsSetElems ix.2).map fun els => (natKey ix.1, els)
  | .str s => .ok (s.enum.map fun ic => (natKey ic.1, [JVal.str [ic.2]]))
  | _ => .ok []


/-! ### Renderer grouping (C9)

`groupByDate` builds an insertion-ordered `Map` from date to group, then
sorts the entries with `(a,b) => a[0] < b[0] ? 1 : -1`.  `lexLt` is the JS
`<` on strings (lexicographic by code unit).  Since the comparator is a
strict total order and the map keys are distinct, the sorted permutation
is unique, so any sorting algorithm models `Array.prototype.sort`;
insertion sort (`sortDesc`) is used. -/

def lexLt : Str → Str → Bool
  | [], [] => false
  | [], _ :: _ => true
  | _ :: _, [] => false
  | a :: as, b :: bs => if a < b then true else if b < a then false else lexLt as bs


/-- Insert into a list sorted descending by `lexLt` on the key. -/
def insertDesc (e : Str × List DatedPaper) :
    List (Str × List DatedPaper) → List (Str × List DatedPaper)
  | [] => [e]
  | x :: xs => if lexLt e.1 x.1 then x :: insertDesc e xs else e :: x :: xs


def sortDesc (l : List (Str × List DatedPaper)) : List (Str × List DatedPaper) :=
  l.foldr insertDesc []


/-- One step of the `Map` building loop of `groupByDate`: append the paper
to its date's group, or open a new group at the end. -/
def addToGroups (groups : List (Str × List DatedPaper)) (p : DatedPaper) :
    List (Str × List DatedPaper) :=
  if p.date ∈ groups.map (fun e => e.1) then
    groups.map fun e => if e.1 = p.date then (e.1, e.2 ++ [p]) else e
  else groups ++ [(p.date, [p])]


/-- `groupByDate(papers)` from app.js. -/
def groupByDate (papers : List DatedPaper) : List (Str × List DatedPaper) :=
  sortDesc (papers.foldl addToGroups [])


theorem normalize_append (a b : Str) : normalize (a ++ b) = normalize a ++ normalize b :=
  List.map_append _ a b


theorem toLower_space : Char.toLower ' ' = ' ' := by decide


theorem normalize_space_join (a b : Str) :
    normalize (a ++ ' ' :: b) = normalize a ++ ' ' :: normalize b := by
  simp [normalize, toLower_space]


/-- C1, counterexample: with title `The`, summary `Hat` and the single term
`" e h "` (leading/trailing blanks), the claim's reading — the term itself
must occur in the plain concatenation `TheHat` — is false, yet the code
trims the term to `e h` and finds it in the space-joined haystack
`the hat`, returning true. -/
theorem c1_counterexample :
    textMatches ⟨"The".toList, "Hat".toList, none, [], []⟩ [" e h ".toList] false = true ∧
      ¬ textMatchesClaimSpec ⟨"The".toList, "Hat".toList, none, [], []⟩ [" e h ".toList] false := by
  constructor
  · decide
  · intro h
    rcases h with h | h
    · exact absurd h (by decide)
    · have := h (" e h ".toList) (by decide)
      revert this
      decide


/-- C1 as amended: `textMatches` returns true iff the term list is empty or
every term, after trimming surrounding whitespace (a term trimming to
nothing is vacuously satisfied; quote stripping applies to the trimmed
term), occurs case-insensitively in the title alone (title-only mode) or in
the title and summary joined by a single space. -/
theorem c1_textMatches_amended (p : Paper) (terms : List Str) (b : Bool) :
    textMatches p terms b = true ↔ textMatchesAmendedSpec p terms b := by
  unfold textMatches textMatchesAmendedSpec
  rcases terms with _ | ⟨t, ts⟩
  · simp
  · rw [if_neg (by simp)]
    rw [List.all_eq_true]
    constructor
    · intro h
      refine Or.inr ?_
      intro u hu
      have hu' := h u hu
      simp only at hu'
      by_cases he : (jsTrim u).isEmpty
      · exact Or.inl (List.isEmpty_iff.mp he)
      · rw [if_neg he] at hu'
        refine Or.inr ?_
        rcases b with _ | _
        · simpa [normalize_space_join] using hu'
        · simpa using hu'
    · intro h u hu
      rcases h with h | h
      · exact absurd h (by simp)
      · have hu' := h u hu
        simp only at hu' ⊢
        by_cases he : (jsTrim u).isEmpty
        · rw [if_pos he]
        · rw [if_neg he]
          rcases hu' with h0 | h0
          · exact absurd (List.isEmpty_iff.mpr h0) he
          · rcases b with _ | _
            · simpa [normalize_space_join] using h0
            · simpa using h0


/-- C6: the category filter accepts every paper when the allowed set is
empty, and otherwise accepts exactly when some category of the paper lies
in the allowed set. -/
theorem c6_categoryMatches (p : Paper) (allowed : List Str) :
    categoryMatches p allowed = true ↔ categoryMatchesSpec p allowed := by
  unfold categoryMatches categoryMatchesSpec
  by_cases h : allowed.isEmpty
  · rw [if_pos h]
    simp [List.isEmpty_iff.mp h]
  · rw [if_neg h]
    have hne : ¬ allowed = [] := fun hh => h (List.isEmpty_iff.mpr hh)
    simp [List.any_eq_true, hne]


theorem scanOut_no_quote (s : Str) (h : '"' ∉ s) : scanOut s = ([], s) := by
  induction s with
  | nil => rfl
  | cons c t ih =>
    have hc : ¬ c = '"' := fun hh => h (hh ▸ List.mem_cons_self c t)
    have ht : '"' ∉ t := fun hh => h (List.mem_cons_of_mem c hh)
    rw [scanOut, if_neg hc, ih ht]


theorem scanOpen_closes (s2 : Str) (ph : Str) (acc : Str)
    (hph : '"' ∉ ph) (hne : ¬(ph = [] ∧ acc = [])) :
    scanOpen (ph ++ '"' :: s2) acc =
      ((acc.reverse ++ ph) :: (scanOut s2).1, (scanOut s2).2) := by
  induction ph generalizing acc with
  | nil =>
    have hacc : ¬ acc = [] := fun hh => hne ⟨rfl, hh⟩
    rw [List.nil_append, scanOpen, if_pos rfl,
      if_neg (fun hh => hacc (List.isEmpty_iff.mp hh))]
    simp
  | cons c t ih =>
    have hc : ¬ c = '"' := fun hh => hph (hh ▸ List.mem_cons_self c t)
    have ht : '"' ∉ t := fun hh => hph (List.mem_cons_of_mem c hh)
    rw [List.cons_append, scanOpen, if_neg hc, ih (c :: acc) ht (by simp)]
    simp


theorem scanOut_single_phrase (s1 s2 phrase : Str)
    (h1 : '"' ∉ s1) (h2 : '"' ∉ s2) (hp : ¬ phrase = []) (hq : '"' ∉ phrase) :
    scanOut (s1 ++ '"' :: (phrase ++ '"' :: s2)) = ([phrase], s1 ++ s2) := by
  induction s1 with
  | nil =>
    rw [List.nil_append, scanOut, if_pos rfl,
      scanOpen_closes s2 phrase [] hq (fun hh => hp hh.1), scanOut_no_quote s2 h2]
    simp
  | cons c t ih =>
    have hc : ¬ c = '"' := fun hh => h1 (hh ▸ List.mem_cons_self c t)
    have ht : '"' ∉ t := fun hh => h1 (List.mem_cons_of_mem c hh)
    rw [List.cons_append, scanOut, if_neg hc, ih ht]
    simp


/-- C7: on a search string holding one double-quoted phrase (quote-free
remainder on either side, already trimmed), term extraction returns the
quoted phrase as a single term, followed by the whitespace-separated
single-word terms of the remainder and the active chip terms, with blank
terms discarded. -/
theorem c7_getActiveTerms (s1 s2 phrase : Str) (chips : List Str)
    (h1 : '"' ∉ s1) (h2 : '"' ∉ s2) (hp : ¬ phrase = []) (hq : '"' ∉ phrase)
    (ht : jsTrim (s1 ++ '"' :: (phrase ++ '"' :: s2)) = s1 ++ '"' :: (phrase ++ '"' :: s2)) :
    getActiveTerms (s1 ++ '"' :: (phrase ++ '"' :: s2)) chips =
      ('"' :: (phrase ++ ['"'])) ::
        ((if (jsTrim (s1 ++ s2)).isEmpty then [] else splitWS (jsTrim (s1 ++ s2))) ++
          chips).filter (fun t => !t.isEmpty) := by
  unfold getActiveTerms
  simp only [ht, scanOut_single_phrase s1 s2 phrase h1 h2 hp hq]
  simp


/-- Witness for C7: extracting from `"a b" see` with chips `["", "llm"]`
yields the phrase term `"a b"`, the single word `see`, and the non-blank
chip `llm`. -/
theorem c7_witness :
    ('"' ∉ ([] : Str) ∧ '"' ∉ " see".toList ∧ ¬ "a b".toList = [] ∧ '"' ∉ "a b".toList ∧
      jsTrim ([] ++ '"' :: ("a b".toList ++ '"' :: " see".toList)) =
        [] ++ '"' :: ("a b".toList ++ '"' :: " see".toList)) ∧
    getActiveTerms ([] ++ '"' :: ("a b".toList ++ '"' :: " see".toList)) [[], "llm".toList] =
      ('"' :: ("a b".toList ++ ['"'])) ::
        ((if (jsTrim ([] ++ " see".toList)).isEmpty then []
          else splitWS (jsTrim ([] ++ " see".toList))) ++
          [[], "llm".toList]).filter (fun t => !t.isEmpty) :=
  ⟨⟨by decide, by decide, by decide, by decide, by decide⟩,
    c7_getActiveTerms [] " see".toList "a b".toList [[], "llm".toList]
      (by decide) (by decide) (by decide) (by decide) (by decide)⟩


/-- C3: `loadDays` is the concatenation of the per-day results in day
order; a day whose fetch fails (network error, non-OK status, non-array
payload) contributes the empty list; and nothing is deduplicated — each
paper occurs in the combined list exactly as many times as it occurs
across the days' results, so a paper present in two days' files appears
twice. -/
theorem c3_loadDays (net : Str → FetchResult) (dayStr : Nat → Str) (n : Nat) :
    loadDays net dayStr n = (((List.range n).map fun i => fetchDay net (dayStr i))).flatten ∧
    (∀ d, fetchFails (net d) = true → fetchDay net d = []) ∧
    (∀ x : DatedPaper,
      (loadDays net dayStr n).count x =
        (((List.range n).map fun i => (fetchDay net (dayStr i)).count x)).sum) := by
  refine ⟨rfl, ?_, ?_⟩
  · intro d hd
    cases h : net d with
    | okArray ps => exact absurd hd (by simp [fetchFails, h])
    | netError => simp [fetchDay, h]
    | httpNotOk => simp [fetchDay, h]
    | okNonArray => simp [fetchDay, h]
  · intro x
    unfold loadDays
    rw [List.count_flatten]
    simp [Function.comp_def]


/-- Witness for C3 at a concrete network where every fetch returns
HTTP 404: the day contributes the empty list. -/
theorem c3_witness :
    fetchFails ((fun _ => FetchResult.httpNotOk) ([] : Str)) = true ∧
      fetchDay (fun _ => FetchResult.httpNotOk) [] = [] :=
  ⟨by decide, (c3_loadDays (fun _ => FetchResult.httpNotOk) (fun _ => []) 3).2.1 [] (by decide)⟩


/-! Association-list and set lemmas. -/

theorem mem_setAdd (s : List Str) (x y : Str) :
    y ∈ setAdd s x ↔ y ∈ s ∨ y = x := by
  unfold setAdd
  by_cases h : x ∈ s
  · rw [if_pos h]
    constructor
    · exact Or.inl
    · rintro (hy | rfl)
      · exact hy
      · exact h
  · rw [if_neg h]
    simp


theorem mem_foldl_setAdd (l : List Str) (acc : List Str) (y : Str) :
    y ∈ l.foldl setAdd acc ↔ y ∈ acc ∨ y ∈ l := by
  induction l generalizing acc with
  | nil => simp
  | cons x t ih =>
    rw [List.foldl_cons, ih, mem_setAdd]
    simp [or_assoc]


theorem mem_dedupKF (l : List Str) (y : Str) : y ∈ dedupKF l ↔ y ∈ l := by
  unfold dedupKF
  rw [mem_foldl_setAdd]
  simp


theorem foldl_setAdd_of_nodup (l : List Str) (acc : List Str)
    (h : (acc ++ l).Nodup) : l.foldl setAdd acc = acc ++ l := by
  induction l generalizing acc with
  | nil => simp
  | cons x t ih =>
    have hx : x ∉ acc := by
      intro hmem
      exact List.disjoint_of_nodup_append h hmem (List.mem_cons_self x t)
    rw [List.foldl_cons, setAdd, if_neg hx, ih (acc ++ [x]) (by simpa using h)]
    simp


theorem sbtGet_set_self (m : List (Str × List Str)) (k : Str) (v : List Str) :
    sbtGet (sbtSet m k v) k = some v := by
  induction m with
  | nil => simp [sbtSet, sbtGet]
  | cons e t ih =>
    by_cases h : e.1 = k
    · rw [sbtSet, if_pos h]
      unfold sbtGet
      rw [List.find?_cons_of_pos _ (by simp)]
      rfl
    · rw [sbtSet, if_neg h]
      unfold sbtGet at ih ⊢
      rw [List.find?_cons_of_neg _ (by simpa using h)]
      exact ih


theorem sbtGet_set_ne (m : List (Str × List Str)) (k k' : Str) (v : List Str)
    (h : ¬ k' = k) : sbtGet (sbtSet m k v) k' = sbtGet m k' := by
  have h' : ¬ k = k' := fun hh => h hh.symm
  induction m with
  | nil =>
    unfold sbtSet sbtGet
    rw [List.find?_cons_of_neg _ (by simpa using h')]
  | cons e t ih =>
    by_cases he : e.1 = k
    · rw [sbtSet, if_pos he]
      unfold sbtGet
      rw [List.find?_cons_of_neg _ (by simpa using h'),
        List.find?_cons_of_neg _ (by simpa [he] using h')]
    · rw [sbtSet, if_neg he]
      unfold sbtGet at ih ⊢
      by_cases he' : e.1 = k'
      · rw [List.find?_cons_of_pos _ (by simpa using he'),
          List.find?_cons_of_pos _ (by simpa using he')]
      · rw [List.find?_cons_of_neg _ (by simpa using he'),
          List.find?_cons_of_neg _ (by simpa using he')]
        exact ih


theorem sbtGet_delete_self (m : List (Str × List Str)) (k : Str) :
    sbtGet (sbtDelete m k) k = none := by
  induction m with
  | nil => rfl
  | cons e t ih =>
    unfold sbtDelete at ih ⊢
    rw [List.filter_cons]
    by_cases h : e.1 = k
    · rw [if_neg (by simpa using h)]
      exact ih
    · rw [if_pos (by simpa using h)]
      unfold sbtGet at ih ⊢
      rw [List.find?_cons_of_neg _ (by simpa using h)]
      exact ih


theorem sbtGet_delete_ne (m : List (Str × List Str)) (k k' : Str) (h : ¬ k' = k) :
    sbtGet (sbtDelete m k) k' = sbtGet m k' := by
  induction m with
  | nil => rfl
  | cons e t ih =>
    unfold sbtDelete at ih ⊢
    rw [List.filter_cons]
    by_cases he : e.1 = k
    · rw [if_neg (by simpa using he)]
      unfold sbtGet at ih ⊢
      rw [ih, List.find?_cons_of_neg _ (by simp [he]; exact fun hh => h hh.symm)]
    · rw [if_pos (by simpa using he)]
      unfold sbtGet at ih ⊢
      by_cases he' : e.1 = k'
      · rw [List.find?_cons_of_pos _ (by simpa using he'),
          List.find?_cons_of_pos _ (by simpa using he')]
      · rw [List.find?_cons_of_neg _ (by simpa using he'),
          List.find?_cons_of_neg _ (by simpa using he')]
        exact ih


theorem mem_sbtSet (m : List (Str × List Str)) (k : Str) (v : List Str)
    (e : Str × List Str) (h : e ∈ sbtSet m k v) : e = (k, v) ∨ e ∈ m := by
  induction m with
  | nil => simpa [sbtSet] using h
  | cons f t ih =>
    by_cases hf : f.1 = k
    · rw [sbtSet, if_pos hf] at h
      rcases List.mem_cons.mp h with rfl | h'
      · exact Or.inl rfl
      · exact Or.inr (List.mem_cons_of_mem f h')
    · rw [sbtSet, if_neg hf] at h
      rcases List.mem_cons.mp h with rfl | h'
      · exact Or.inr (List.mem_cons_self e t)
      · rcases ih h' with h'' | h''
        · exact Or.inl h''
        · exact Or.inr (List.mem_cons_of_mem f h'')


theorem mem_sbtDelete (m : List (Str × List Str)) (k : Str)
    (e : Str × List Str) (h : e ∈ sbtDelete m k) : e ∈ m ∧ ¬ e.1 = k := by
  unfold sbtDelete at h
  have := List.of_mem_filter h
  exact ⟨List.mem_of_mem_filter h, by simpa using this⟩


theorem sbtGet_map_dedup (m : List (Str × List Str)) (k : Str) :
    sbtGet (m.map fun e => (e.1, dedupKF e.2)) k = (sbtGet m k).map dedupKF := by
  induction m with
  | nil => rfl
  | cons e t ih =>
    by_cases h : e.1 = k
    · unfold sbtGet
      rw [List.map_cons, List.find?_cons_of_pos _ (by simpa using h),
        List.find?_cons_of_pos _ (by simpa using h)]
      rfl
    · unfold sbtGet at ih ⊢
      rw [List.map_cons, List.find?_cons_of_neg _ (by simpa using h),
        List.find?_cons_of_neg _ (by simpa using h)]
      exact ih


/-- C2, counterexample: importing the full payload
`{readLater: ["b"], topics: [], starsByTopic: {}}` into a store whose
read-later set is `{"a"}` does not union — the existing identity `a` is
removed. -/
theorem c2_counterexample :
    "a".toList ∈ (⟨["a".toList], [], []⟩ : Store).readLater ∧
      "a".toList ∉
        (importFullPayload ⟨["a".toList], [], []⟩ ⟨["b".toList], [], []⟩).readLater := by
  constructor
  · decide
  · decide


/-- C2 as amended: a full-payload import replaces the stored state with
the payload's contents (identity lists deduplicated, first occurrence
kept): the result is independent of the previous store, the topic list
becomes the payload's, the read-later members are exactly the payload's,
and each topic key's set is the payload's deduplicated set.  Only
bare-array imports merge additively. -/
theorem c2_importFullPayload_amended (s s' : Store) (p : Payload) :
    importFullPayload s p = importFullPayload s' p ∧
    (importFullPayload s p).topics = p.topics ∧
    (∀ x, x ∈ (importFullPayload s p).readLater ↔ x ∈ p.readLater) ∧
    (∀ k, sbtGet (importFullPayload s p).starsByTopic k = (sbtGet p.starsByTopic k).map dedupKF) := by
  refine ⟨rfl, rfl, ?_, ?_⟩
  · intro x
    exact mem_dedupKF p.readLater x
  · intro k
    exact sbtGet_map_dedup p.starsByTopic k


/-- C4: exporting the read-later set and importing the resulting array
with destination `read_later` into an empty store reproduces the original
set. -/
theorem c4_roundTrip (s : Store) (h : s.readLater.Nodup) :
    (importBareArray emptyStore "read_later".toList (exportReadLater s)).readLater =
      s.readLater := by
  unfold importBareArray exportReadLater
  rw [if_neg (by decide), if_pos rfl]
  simpa using foldl_setAdd_of_nodup s.readLater [] (by simpa using h)


/-- Witness for C4 at the concrete read-later set `{a, b}`. -/
theorem c4_witness :
    (⟨["a".toList, "b".toList], [], []⟩ : Store).readLater.Nodup ∧
      (importBareArray emptyStore "read_later".toList
          (exportReadLater ⟨["a".toList, "b".toList], [], []⟩)).readLater =
        (⟨["a".toList, "b".toList], [], []⟩ : Store).readLater :=
  ⟨by decide, c4_roundTrip ⟨["a".toList, "b".toList], [], []⟩ (by decide)⟩


/-- C5, counterexample: renaming topic `t` to the *same* name `t` passes
every guard of `renameTopic` (its duplicate check explicitly exempts
`newName === oldName`), yet afterwards the star map no longer holds any
set under `t` — the star set `{p}` formerly stored there is lost, while
`t` is still in the topic list. -/
theorem c5_counterexample :
    sbtGet
        (renameTopic ⟨[], ["t".toList], [("t".toList, ["p".toList])]⟩
            "t".toList "t".toList).starsByTopic "t".toList = none ∧
      "t".toList ∈
        (renameTopic ⟨[], ["t".toList], [("t".toList, ["p".toList])]⟩
            "t".toList "t".toList).topics := by
  constructor
  · decide
  · decide


/-- C5 as amended: for a rename to a genuinely new name — `oldName`
non-empty and present, `newName` non-empty and not already a topic — the
star set stored under `oldName` moves unchanged to `newName`, `oldName`
disappears from both the topic list and the star map, `newName` sits at
the position `oldName` had, and the read-later set is untouched. -/
theorem c5_renameTopic_amended (s : Store) (oldN newN : Str) (v : List Str)
    (hone : ¬ oldN = []) (hold : oldN ∈ s.topics) (hnew : newN ∉ s.topics)
    (hne : ¬ newN = []) (hv : sbtGet s.starsByTopic oldN = some v) :
    sbtGet (renameTopic s oldN newN).starsByTopic newN = some v ∧
    sbtGet (renameTopic s oldN newN).starsByTopic oldN = none ∧
    oldN ∉ (renameTopic s oldN newN).topics ∧
    (renameTopic s oldN newN).topics.length = s.topics.length ∧
    (∀ i : Nat,
      (renameTopic s oldN newN).topics[i]? =
        if s.topics[i]? = some oldN then some newN else s.topics[i]?) ∧
    (renameTopic s oldN newN).readLater = s.readLater := by
  have hno : ¬ newN = oldN := fun hh => hnew (hh ▸ hold)
  have hred : renameTopic s oldN newN =
      { s with
        topics := s.topics.map fun t => if t = oldN then newN else t,
        starsByTopic :=
          sbtDelete
            (sbtSet s.starsByTopic newN ((sbtGet s.starsByTopic oldN).getD []))
            oldN } := by
    unfold renameTopic
    rw [if_neg (List.ne_nil_of_mem hold), if_neg (by simp [hone, hold]),
      if_neg hne, if_neg (by simp [hnew])]
  refine ⟨?_, ?_, ?_, ?_, ?_, ?_⟩
  · rw [hred]
    simp only
    rw [sbtGet_delete_ne _ _ _ hno, sbtGet_set_self, hv]
    rfl
  · rw [hred]
    simp only
    rw [sbtGet_delete_self]
  · rw [hred]
    simp only
    intro hmem
    rcases List.mem_map.mp hmem with ⟨t, _, hft⟩
    by_cases hto : t = oldN
    · rw [if_pos hto] at hft
      exact hno (hft ▸ rfl)
    · rw [if_neg hto] at hft
      exact hto hft
  · rw [hred]
    simp
  · intro i
    rw [hred]
    simp only
    rw [List.getElem?_map]
    cases hgi : s.topics[i]? with
    | none => rfl
    | some t =>
      by_cases hto : t = oldN
      · rw [if_pos (by rw [hto])]
        simp [hto]
      · rw [if_neg (by simpa using hto)]
        simp [hto]
  · rw [hred]


/-- Witness for C5 at a concrete store: rename `t` (stars `{p}`) to `u`. -/
theorem c5_witness :
    (¬ "t".toList = [] ∧ "t".toList ∈ ["s".toList, "t".toList] ∧
      "u".toList ∉ ["s".toList, "t".toList] ∧ ¬ "u".toList = [] ∧
      sbtGet [("t".toList, ["p".toList])] "t".toList = some ["p".toList]) ∧
    sbtGet
        (renameTopic ⟨[], ["s".toList, "t".toList], [("t".toList, ["p".toList])]⟩
            "t".toList "u".toList).starsByTopic "u".toList = some ["p".toList] ∧
      sbtGet
          (renameTopic ⟨[], ["s".toList, "t".toList], [("t".toList, ["p".toList])]⟩
              "t".toList "u".toList).starsByTopic "t".toList = none ∧
      "t".toList ∉
        (renameTopic ⟨[], ["s".toList, "t".toList], [("t".toList, ["p".toList])]⟩
            "t".toList "u".toList).topics ∧
      (renameTopic ⟨[], ["s".toList, "t".toList], [("t".toList, ["p".toList])]⟩
          "t".toList "u".toList).topics.length = ["s".toList, "t".toList].length ∧
      (∀ i : Nat,
        (renameTopic ⟨[], ["s".toList, "t".toList], [("t".toList, ["p".toList])]⟩
            "t".toList "u".toList).topics[i]? =
          if (["s".toList, "t".toList])[i]? = some "t".toList then some "u".toList
          else (["s".toList, "t".toList])[i]?) ∧
      (renameTopic ⟨[], ["s".toList, "t".toList], [("t".toList, ["p".toList])]⟩
          "t".toList "u".toList).readLater = [] :=
  ⟨⟨by decide, by decide, by decide, by decide, by decide⟩,
    c5_renameTopic_amended ⟨[], ["s".toList, "t".toList], [("t".toList, ["p".toList])]⟩
      "t".toList "u".toList ["p".toList]
      (by decide) (by decide) (by decide) (by decide) (by decide)⟩


theorem keysSub_applyOp (s : Store) (op : Op) (hs : keysSub s)
    (hop : wfOp s op = true) : keysSub (applyOp s op) := by
  cases op with
  | create n =>
    show keysSub (createTopic s n)
    unfold createTopic
    by_cases h1 : n = []
    · rw [if_pos h1]; exact hs
    · rw [if_neg h1]
      by_cases h2 : n ∈ s.topics
      · rw [if_pos h2]; exact hs
      · rw [if_neg h2]
        intro e he
        simp only at he ⊢
        by_cases h3 : (sbtGet s.starsByTopic n).isSome
        · rw [if_pos h3] at he
          exact List.mem_append_left _ (hs e he)
        · rw [if_neg h3] at he
          rcases List.mem_append.mp he with he' | he'
          · exact List.mem_append_left _ (hs e he')
          · simp only [List.mem_singleton] at he'
            subst he'
            simp
  | rename o n =>
    show keysSub (renameTopic s o n)
    unfold renameTopic
    by_cases h1 : s.topics = []
    · rw [if_pos h1]; exact hs
    · rw [if_neg h1]
      by_cases h2 : o = [] ∨ o ∉ s.topics
      · rw [if_pos h2]; exact hs
      · rw [if_neg h2]
        have ho : o ∈ s.topics := by
          rcases not_or.mp h2 with ⟨_, hh⟩
          exact not_not.mp hh
        by_cases h3 : n = []
        · rw [if_pos h3]; exact hs
        · rw [if_neg h3]
          by_cases h4 : n ∈ s.topics ∧ ¬ n = o
          · rw [if_pos h4]; exact hs
          · rw [if_neg h4]
            intro e he
            simp only at he ⊢
            rcases mem_sbtDelete _ _ _ he with ⟨he', hne⟩
            rcases mem_sbtSet _ _ _ _ he' with rfl | hm
            · exact List.mem_map.mpr ⟨o, ho, by simp⟩
            · refine List.mem_map.mpr ⟨e.1, hs e hm, ?_⟩
              rw [if_neg hne]
  | del n =>
    show keysSub (deleteTopic s n)
    unfold deleteTopic
    by_cases h1 : s.topics = []
    · rw [if_pos h1]; exact hs
    · rw [if_neg h1]
      by_cases h2 : n = [] ∨ n ∉ s.topics
      · rw [if_pos h2]; exact hs
      · rw [if_neg h2]
        intro e he
        simp only at he ⊢
        rcases mem_sbtDelete _ _ _ he with ⟨he', hne⟩
        exact List.mem_filter.mpr ⟨hs e he', by simpa using hne⟩
  | starAdd t id =>
    show keysSub (addStarToTopic s t id)
    have ht : t ∈ s.topics := by simpa [wfOp] using hop
    unfold addStarToTopic
    by_cases h0 : t = []
    · rw [if_pos h0]; exact hs
    · rw [if_neg h0]
      intro e he
      simp only at he ⊢
      rcases mem_sbtSet _ _ _ _ he with rfl | hm
      · exact ht
      · exact hs e hm
  | starRemoveAll id =>
    show keysSub (removeStarFromAll s id)
    unfold removeStarFromAll
    intro e he
    simp only at he ⊢
    rcases List.mem_map.mp he with ⟨f, hf, rfl⟩
    exact hs f hf
  | starRemove t id =>
    show keysSub (removeStarFromTopic s t id)
    unfold removeStarFromTopic
    intro e he
    simp only at he ⊢
    rcases List.mem_map.mp he with ⟨f, hf, rfl⟩
    by_cases hft : f.1 = t
    · rw [if_pos hft]
      simpa [hft] using hs f hf
    · rw [if_neg hft]
      exact hs f hf
  | rlToggle id =>
    show keysSub (toggleReadLater s id)
    unfold toggleReadLater
    by_cases h : id ∈ s.readLater
    · rw [if_pos h]; exact hs
    · rw [if_neg h]; exact hs
  | impBare k ids =>
    show keysSub (importBareArray s k ids)
    unfold importBareArray
    by_cases h1 : k = []
    · rw [if_pos h1]; exact hs
    · rw [if_neg h1]
      by_cases h2 : k = "read_later".toList
      · rw [if_pos h2]; exact hs
      · rw [if_neg h2]
        intro e he
        simp only at he ⊢
        have hk : k ∈ if k ∈ s.topics then s.topics else s.topics ++ [k] := by
          by_cases h3 : k ∈ s.topics
          · rw [if_pos h3]; exact h3
          · rw [if_neg h3]; simp
        rcases mem_sbtSet _ _ _ _ he with rfl | hm
        · exact hk
        · have := hs e hm
          by_cases h3 : k ∈ s.topics
          · rw [if_pos h3]; exact this
          · rw [if_neg h3]; exact List.mem_append_left _ this
  | impFull p =>
    show keysSub (importFullPayload s p)
    have hall : ∀ a b, (a, b) ∈ p.starsByTopic → a ∈ p.topics := by
      simpa [wfOp] using hop
    unfold importFullPayload
    intro e he
    simp only at he ⊢
    rcases List.mem_map.mp he with ⟨⟨k, v⟩, hf, rfl⟩
    exact hall k v hf


theorem keysSub_runOps (ops : List Op) (s : Store) (hs : keysSub s)
    (h : wfRun s ops = true) : keysSub (runOps s ops) := by
  induction ops generalizing s with
  | nil => exact hs
  | cons op rest ih =>
    rw [wfRun] at h
    have h' : wfOp s op = true ∧ wfRun (applyOp s op) rest = true := by simpa using h
    exact ih (applyOp s op) (keysSub_applyOp s op hs h'.1) h'.2


/-- C8, counterexample: a single full-payload import of
`{readLater: [], topics: ["a"], starsByTopic: {"b": []}}` into the empty
store leaves `b` as a star-map key that is not in the topic list — the
claimed invariant fails after a legal import operation. -/
theorem c8_counterexample :
    ¬ keysSub
        (runOps emptyStore
          [Op.impFull ⟨[], ["a".toList], [("b".toList, [])]⟩]) := by
  intro h
  have := h ("b".toList, []) (by decide)
  revert this
  decide


/-- C8 as amended: starting from the empty store, the star-map keys stay a
subset of the topic list after every sequence of operations (create,
rename, delete, star add/remove, read-later toggle, bare-array import,
full-payload import) in which every star add targets a topic from the
current topic list — as the UI's topic select guarantees — and every
full-payload import carries star keys lying in its own topic list. -/
theorem c8_keysSub_amended (ops : List Op) (h : wfRun emptyStore ops = true) :
    keysSub (runOps emptyStore ops) :=
  keysSub_runOps ops emptyStore (by intro e he; cases he) h


/-- Witness for C8: create topic `a`, star paper `p` under it, then
delete it again — the invariant holds. -/
theorem c8_witness :
    wfRun emptyStore
        [Op.create "a".toList, Op.starAdd "a".toList "p".toList, Op.del "a".toList] = true ∧
      keysSub
        (runOps emptyStore
          [Op.create "a".toList, Op.starAdd "a".toList "p".toList, Op.del "a".toList]) :=
  ⟨by decide,
    c8_keysSub_amended
      [Op.create "a".toList, Op.starAdd "a".toList "p".toList, Op.del "a".toList]
      (by decide)⟩


/-- C10, counterexample: the stored string `5` is valid JSON, so
`loadJSON` returns the number 5, and `new Set(5)` throws a `TypeError` —
`loadReadLater` does not return at all, refuting "never throws for every
storage state". -/
theorem c10_counterexample : loadReadLater (.json (.num 5)) = .error () := rfl


/-- C10 as amended: whenever the stored value is absent, the empty string,
or not valid JSON, the three loaders return their fallbacks without
raising — the empty set, the empty list, the empty map; a stored value
that is valid JSON of the wrong shape can still make `loadReadLater` or
`loadStarsByTopic` throw. -/
theorem c10_loaders_amended (cell : RawCell) (h : cell.fallsBack = true) :
    loadReadLater cell = .ok [] ∧ loadTopics cell = JVal.arr [] ∧
      loadStarsByTopic cell = .ok [] := by
  cases cell with
  | absent => exact ⟨rfl, rfl, rfl⟩
  | emptyStr => exact ⟨rfl, rfl, rfl⟩
  | invalid => exact ⟨rfl, rfl, rfl⟩
  | json v => exact absurd h (by simp [RawCell.fallsBack])


/-- Witness for C10 at the absent cell. -/
theorem c10_witness :
    RawCell.fallsBack .absent = true ∧
      (loadReadLater .absent = .ok [] ∧ loadTopics .absent = JVal.arr [] ∧
        loadStarsByTopic .absent = .ok []) :=
  ⟨rfl, c10_loaders_amended .absent rfl⟩


theorem lexLt_asymm : ∀ a b : Str, lexLt a b = true → lexLt b a = false := by
  intro a
  induction a with
  | nil =>
    intro b h
    cases b with
    | nil => exact absurd h (by simp [lexLt])
    | cons c t => simp [lexLt]
  | cons x xs ih =>
    intro b h
    cases b with
    | nil => exact absurd h (by simp [lexLt])
    | cons y ys =>
      rw [lexLt] at h ⊢
      by_cases hxy : x < y
      · rw [if_neg (lt_asymm hxy), if_pos hxy]
      · rw [if_neg hxy] at h
        by_cases hyx : y < x
        · rw [if_pos hyx] at h
          exact absurd h (by simp)
        · rw [if_neg hyx] at h
          rw [if_neg hyx, if_neg hxy]
          exact ih ys h


theorem lexLt_eq_of_not_lt : ∀ a b : Str, lexLt a b = false → lexLt b a = false → a = b := by
  intro a
  induction a with
  | nil =>
    intro b h1 _
    cases b with
    | nil => rfl
    | cons c t => exact absurd h1 (by simp [lexLt])
  | cons x xs ih =>
    intro b h1 h2
    cases b with
    | nil => exact absurd h2 (by simp [lexLt])
    | cons y ys =>
      rw [lexLt] at h1 h2
      by_cases hxy : x < y
      · rw [if_pos hxy] at h1
        exact absurd h1 (by simp)
      · rw [if_neg hxy] at h1
        by_cases hyx : y < x
        · rw [if_pos hyx] at h2
          exact absurd h2 (by simp)
        · rw [if_neg hyx] at h1
          rw [if_neg hyx, if_neg hxy] at h2
          have hxy' : x = y := le_antisymm (not_lt.mp hyx) (not_lt.mp hxy)
          rw [hxy', ih ys h1 h2]


theorem lexLt_trans : ∀ a b c : Str,
    lexLt a b = true → lexLt b c = true → lexLt a c = true := by
  intro a
  induction a with
  | nil =>
    intro b c h1 h2
    cases b with
    | nil => exact absurd h1 (by simp [lexLt])
    | cons y ys =>
      cases c with
      | nil => exact absurd h2 (by simp [lexLt])
      | cons z zs => simp [lexLt]
  | cons x xs ih =>
    intro b c h1 h2
    cases b with
    | nil => exact absurd h1 (by simp [lexLt])
    | cons y ys =>
      cases c with
      | nil => exact absurd h2 (by simp [lexLt])
      | cons z zs =>
        rw [lexLt] at h1 h2 ⊢
        by_cases hxy : x < y
        · by_cases hyz : y < z
          · rw [if_pos (lt_trans hxy hyz)]
          · by_cases hzy : z < y
            · rw [if_neg hyz, if_pos hzy] at h2
              exact absurd h2 (by simp)
            · have hyz' : y = z := le_antisymm (not_lt.mp hzy) (not_lt.mp hyz)
              rw [if_pos (hyz' ▸ hxy)]
        · rw [if_neg hxy] at h1
          by_cases hyx : y < x
          · rw [if_pos hyx] at h1
            exact absurd h1 (by simp)
          · rw [if_neg hyx] at h1
            have hxy' : x = y := le_antisymm (not_lt.mp hyx) (not_lt.mp hxy)
            subst hxy'
            by_cases hxz : x < z
            · rw [if_pos hxz]
            · rw [if_neg hxz] at h2 ⊢
              by_cases hzx : z < x
              · rw [if_pos hzx] at h2
                exact absurd h2 (by simp)
              · rw [if_neg hzx] at h2 ⊢
                exact ih ys zs h1 h2


theorem lexLt_notLt_trans (a b c : Str)
    (h1 : lexLt a b = false) (h2 : lexLt b c = false) : lexLt a c = false := by
  cases hac : lexLt a c with
  | false => rfl
  | true =>
    exfalso
    cases hba : lexLt b a with
    | false =>
      have hab : a = b := lexLt_eq_of_not_lt a b h1 hba
      subst hab
      exact absurd hac (by simp [h2])
    | true =>
      cases hcb : lexLt c b with
      | false =>
        have hbc : b = c := lexLt_eq_of_not_lt b c h2 hcb
        subst hbc
        exact absurd hac (by simp [h1])
      | true =>
        have hca := lexLt_trans c b a hcb hba
        have := lexLt_asymm c a hca
        exact absurd hac (by simp [this])


theorem lexLt_true_of_ne (a b : Str) (h : lexLt a b = false) (hne : ¬ a = b) :
    lexLt b a = true := by
  cases hba : lexLt b a with
  | false => exact absurd (lexLt_eq_of_not_lt a b h hba) hne
  | true => rfl


theorem perm_insertDesc (e : Str × List DatedPaper) (l : List (Str × List DatedPaper)) :
    (insertDesc e l).Perm (e :: l) := by
  induction l with
  | nil => exact List.Perm.refl _
  | cons x xs ih =>
    rw [insertDesc]
    by_cases h : lexLt e.1 x.1
    · rw [if_pos h]
      exact (ih.cons x).trans (List.Perm.swap e x xs)
    · rw [if_neg h]


theorem perm_sortDesc (l : List (Str × List DatedPaper)) : (sortDesc l).Perm l := by
  induction l with
  | nil => exact List.Perm.refl _
  | cons x xs ih =>
    exact (perm_insertDesc x (sortDesc xs)).trans (ih.cons x)


theorem pairwise_insertDesc (e : Str × List DatedPaper) (l : List (Str × List DatedPaper))
    (h : l.Pairwise fun a b => lexLt a.1 b.1 = false) :
    (insertDesc e l).Pairwise fun a b => lexLt a.1 b.1 = false := by
  induction l with
  | nil => simp [insertDesc]
  | cons x xs ih =>
    rcases List.pairwise_cons.mp h with ⟨hx, hxs⟩
    rw [insertDesc]
    by_cases hc : lexLt e.1 x.1
    · rw [if_pos hc]
      refine List.pairwise_cons.mpr ⟨?_, ih hxs⟩
      intro y hy
      rcases List.mem_cons.mp ((perm_insertDesc e xs).mem_iff.mp hy) with hy' | hy'
      · rw [hy']
        exact lexLt_asymm e.1 x.1 hc
      · exact hx y hy'
    · rw [if_neg hc]
      have hex : lexLt e.1 x.1 = false := by
        cases hcc : lexLt e.1 x.1
        · rfl
        · exact absurd hcc hc
      refine List.pairwise_cons.mpr ⟨?_, h⟩
      intro y hy
      rcases List.mem_cons.mp hy with rfl | hy'
      · exact hex
      · exact lexLt_notLt_trans e.1 x.1 y.1 hex (hx y hy')


theorem pairwise_sortDesc (l : List (Str × List DatedPaper)) :
    (sortDesc l).Pairwise fun a b => lexLt a.1 b.1 = false := by
  induction l with
  | nil => simp [sortDesc]
  | cons x xs ih => exact pairwise_insertDesc x (sortDesc xs) ih


theorem addToGroups_invariant (acc : List (Str × List DatedPaper))
    (processed : List DatedPaper) (q : DatedPaper)
    (hnd : (acc.map fun e => e.1).Nodup)
    (hflt : ∀ e ∈ acc, e.2 = processed.filter fun r => decide (r.date = e.1))
    (hcov : ∀ r ∈ processed, r.date ∈ acc.map fun e => e.1) :
    ((addToGroups acc q).map fun e => e.1).Nodup ∧
    (∀ e ∈ addToGroups acc q,
      e.2 = (processed ++ [q]).filter fun r => decide (r.date = e.1)) ∧
    (∀ r ∈ processed ++ [q], r.date ∈ (addToGroups acc q).map fun e => e.1) := by
  by_cases hin : q.date ∈ acc.map fun e => e.1
  · have hkeys : ((addToGroups acc q).map fun e => e.1) = acc.map fun e => e.1 := by
      rw [addToGroups, if_pos hin, List.map_map]
      refine List.map_congr_left ?_
      intro e _
      by_cases h : e.1 = q.date
      · simp [Function.comp, h]
      · simp [Function.comp, h]
    refine ⟨hkeys ▸ hnd, ?_, ?_⟩
    · intro e he
      rw [addToGroups, if_pos hin] at he
      rcases List.mem_map.mp he with ⟨f, hf, rfl⟩
      by_cases h : f.1 = q.date
      · rw [if_pos h]
        simp only [List.filter_append]
        rw [← hflt f hf, h]
        simp [List.filter_cons]
      · rw [if_neg h]
        simp only [List.filter_append]
        rw [← hflt f hf]
        have : List.filter (fun r => decide (r.date = f.1)) [q] = [] := by
          simp [List.filter_cons]
          exact fun hh => h (hh ▸ rfl)
        rw [this, List.append_nil]
    · intro r hr
      rw [hkeys]
      rcases List.mem_append.mp hr with hr' | hr'
      · exact hcov r hr'
      · rw [List.mem_singleton.mp hr']
        exact hin
  · have hkeys : ((addToGroups acc q).map fun e => e.1) =
        (acc.map fun e => e.1) ++ [q.date] := by
      rw [addToGroups, if_neg hin, List.map_append]
      rfl
    refine ⟨?_, ?_, ?_⟩
    · rw [hkeys, List.nodup_append]
      refine ⟨hnd, List.nodup_singleton _, ?_⟩
      intro a ha hb
      rw [List.mem_singleton.mp hb] at ha
      exact hin ha
    · intro e he
      rw [addToGroups, if_neg hin] at he
      rcases List.mem_append.mp he with he' | he'
      · have hne : ¬ q.date = e.1 := by
          intro hh
          exact hin (hh ▸ List.mem_map.mpr ⟨e, he', rfl⟩)
        rw [hflt e he', List.filter_append]
        have : List.filter (fun r => decide (r.date = e.1)) [q] = [] := by
          simp [List.filter_cons]
          exact fun hh => hne hh
        rw [this, List.append_nil]
      · rw [List.mem_singleton.mp he']
        simp only [List.filter_append]
        have hleft : List.filter (fun r => decide (r.date = q.date)) processed = [] := by
          rw [List.filter_eq_nil_iff]
          intro r hr
          simp only [decide_eq_true_eq]
          intro hh
          exact hin (hh ▸ hcov r hr)
        rw [hleft, List.nil_append]
        simp [List.filter_cons]
    · intro r hr
      rw [hkeys]
      rcases List.mem_append.mp hr with hr' | hr'
      · exact List.mem_append_left _ (hcov r hr')
      · rw [List.mem_singleton.mp hr']
        simp


theorem foldl_addToGroups_invariant (ps : List DatedPaper)
    (acc : List (Str × List DatedPaper)) (processed : List DatedPaper)
    (hnd : (acc.map fun e => e.1).Nodup)
    (hflt : ∀ e ∈ acc, e.2 = processed.filter fun r => decide (r.date = e.1))
    (hcov : ∀ r ∈ processed, r.date ∈ acc.map fun e => e.1) :
    ((ps.foldl addToGroups acc).map fun e => e.1).Nodup ∧
    (∀ e ∈ ps.foldl addToGroups acc,
      e.2 = (processed ++ ps).filter fun r => decide (r.date = e.1)) ∧
    (∀ r ∈ processed ++ ps, r.date ∈ (ps.foldl addToGroups acc).map fun e => e.1) := by
  induction ps generalizing acc processed with
  | nil =>
    refine ⟨hnd, ?_, ?_⟩
    · intro e he
      rw [List.append_nil]
      exact hflt e he
    · intro r hr
      rw [List.append_nil] at hr
      exact hcov r hr
  | cons q qs ih =>
    rcases addToGroups_invariant acc processed q hnd hflt hcov with ⟨hnd', hflt', hcov'⟩
    rcases ih (addToGroups acc q) (processed ++ [q]) hnd' hflt' hcov' with ⟨h1, h2, h3⟩
    refine ⟨h1, ?_, ?_⟩
    · intro e he
      rw [List.append_cons processed q qs]
      exact h2 e he
    · intro r hr
      rw [List.append_cons processed q qs] at hr
      exact h3 r hr


/-- C9: `groupByDate` partitions the filtered papers by origin date — each
returned group is exactly the in-order sublist of papers carrying its date
and every paper's date heads some group — and the groups come out in
strictly descending lexicographic order of the date string. -/
theorem c9_groupByDate (ps : List DatedPaper) :
    (∀ e ∈ groupByDate ps, e.2 = ps.filter fun r => decide (r.date = e.1)) ∧
    (∀ p ∈ ps, ∃ e ∈ groupByDate ps, e.1 = p.date) ∧
    (groupByDate ps).Pairwise (fun a b => lexLt b.1 a.1 = true) := by
  rcases foldl_addToGroups_invariant ps [] [] (by simp) (by simp) (by simp) with
    ⟨hnd, hflt, hcov⟩
  have hperm : (groupByDate ps).Perm (ps.foldl addToGroups []) := perm_sortDesc _
  refine ⟨?_, ?_, ?_⟩
  · intro e he
    have := hflt e (hperm.mem_iff.mp he)
    simpa using this
  · intro p hp
    have hd : p.date ∈ (ps.foldl addToGroups []).map fun e => e.1 :=
      hcov p (by simpa using hp)
    rcases List.mem_map.mp hd with ⟨e, hmem, hkey⟩
    exact ⟨e, hperm.mem_iff.mpr hmem, hkey⟩
  · have hP := pairwise_sortDesc (ps.foldl addToGroups [])
    have hnd' : ((groupByDate ps).map fun e => e.1).Nodup :=
      (hperm.map fun e => e.1).nodup_iff.mpr hnd
    have hne : (groupByDate ps).Pairwise fun a b => a.1 ≠ b.1 :=
      List.pairwise_map.mp hnd'
    exact (hP.and hne).imp fun h => lexLt_true_of_ne _ _ h.1 h.2


end Arxiv
